import Mathlib

/-!
Verification of the strat-eng trading/risk engine against its specification.

The Python sources are shallowly embedded:
* prices, signals, capital and commissions are modelled as exact rationals
  (the backtest engine only uses field arithmetic, `abs`, `max`, `cummax`,
  `cumprod` and comparisons);
* pandas columns become Lean lists, per-row values become functions of the
  row index `t`, `shift(1).fillna(0)` becomes an explicit `t = 0` case;
* the Black-Scholes module, which uses the transcendental normal CDF, is
  embedded over the reals with the CDF written as a Lebesgue integral;
* `raise` / `try ... except` become `Except` / `Option` values.
-/

/-! ### Small list helpers (minimum of a pandas column, `Series.min()`) -/

/-- Minimum of a list of rationals, 0 for the empty list
(pandas `Series.min()` over the rows of a column). -/
def listMin : List ℚ → ℚ
  | [] => 0
  | x :: xs => xs.foldl min x

/-! ### The backtest engine (`src/openopt_riskengine/backtesting/engine.py`)

`run_backtest(df, capital, commission_per_trade, commission_pct, ...)` builds
per-row columns from the `Close` and `signal` columns.  Each pandas column is
embedded as a function of the row index `t`; `shift(1)` with `fillna(0.0)`
is the explicit `t = 0` branch. -/

namespace Engine

/-- `df["returns"] = df["Close"].pct_change().fillna(0.0)`. -/
def ret (close : List ℚ) (t : ℕ) : ℚ :=
  if t = 0 then 0
  else (close.getD t 0 - close.getD (t - 1) 0) / close.getD (t - 1) 0

/-- `position = df["signal"].fillna(0).astype(float)`. -/
def pos (sig : List ℚ) (t : ℕ) : ℚ := sig.getD t 0

/-- `executed_pos = position.shift(1).fillna(0.0)`. -/
def execPos (sig : List ℚ) (t : ℕ) : ℚ :=
  if t = 0 then 0 else pos sig (t - 1)

/-- `df["strategy_returns"] = df["returns"] * executed_pos`. -/
def stratRet (close sig : List ℚ) (t : ℕ) : ℚ :=
  ret close t * execPos sig t

/-- `pos_change = position.diff().fillna(0.0)`. -/
def posChange (sig : List ℚ) (t : ℕ) : ℚ :=
  if t = 0 then 0 else pos sig t - pos sig (t - 1)

/-- `executed_change = pos_change.shift(1).fillna(0.0)`. -/
def execChange (sig : List ℚ) (t : ℕ) : ℚ :=
  if t = 0 then 0 else posChange sig (t - 1)

/-- `df["trade"] = executed_change.abs()`. -/
def tradeAmt (sig : List ℚ) (t : ℕ) : ℚ := |execChange sig t|

/-- `df["trade_event"] = (df["trade"] > 0).astype(int)`, as a rational factor. -/
def tradeEvent (sig : List ℚ) (t : ℕ) : ℚ :=
  if 0 < tradeAmt sig t then 1 else 0

/-- `df["trade_cost"] = trade_event * commission_per_trade + commission_pct * (capital * trade)`. -/
def tradeCost (sig : List ℚ) (capital cpt cpct : ℚ) (t : ℕ) : ℚ :=
  tradeEvent sig t * cpt + cpct * (capital * tradeAmt sig t)

/-- `df["cost_return"] = df["trade_cost"] / capital`. -/
def costRet (sig : List ℚ) (capital cpt cpct : ℚ) (t : ℕ) : ℚ :=
  tradeCost sig capital cpt cpct t / capital

/-- `df["net_strategy_returns"] = df["strategy_returns"] - df["cost_return"]`. -/
def netRet (close sig : List ℚ) (capital cpt cpct : ℚ) (t : ℕ) : ℚ :=
  stratRet close sig t - costRet sig capital cpt cpct t

/-- `df["equity_curve"] = capital * (1.0 + df["net_strategy_returns"]).cumprod()`. -/
def equity (close sig : List ℚ) (capital cpt cpct : ℚ) : ℕ → ℚ
  | 0 => capital * (1 + netRet close sig capital cpt cpct 0)
  | t + 1 => equity close sig capital cpt cpct t *
      (1 + netRet close sig capital cpt cpct (t + 1))

/-- `running_max = df["equity_curve"].cummax()`. -/
def runMax (close sig : List ℚ) (capital cpt cpct : ℚ) : ℕ → ℚ
  | 0 => equity close sig capital cpt cpct 0
  | t + 1 => max (runMax close sig capital cpt cpct t)
      (equity close sig capital cpt cpct (t + 1))

/-- `drawdown = (df["equity_curve"] - running_max) / running_max`. -/
def drawdown (close sig : List ℚ) (capital cpt cpct : ℚ) (t : ℕ) : ℚ :=
  (equity close sig capital cpt cpct t - runMax close sig capital cpt cpct t) /
    runMax close sig capital cpt cpct t

/-- `max_drawdown = float(drawdown.min())` over the `n` rows of the frame. -/
def maxDrawdown (close sig : List ℚ) (capital cpt cpct : ℚ) (n : ℕ) : ℚ :=
  listMin ((List.range n).map (drawdown close sig capital cpt cpct))

/-- `n_trades = int(df["trade_event"].sum())` over the `n` rows. -/
def nTrades (sig : List ℚ) (n : ℕ) : ℕ :=
  ((List.range n).map (fun t => if 0 < tradeAmt sig t then 1 else 0)).sum

/-- `total_commission_paid = float(df["trade_cost"].sum())`. -/
def totalCommission (sig : List ℚ) (capital cpt cpct : ℚ) (n : ℕ) : ℚ :=
  ((List.range n).map (tradeCost sig capital cpt cpct)).sum

end Engine

/-! ### Risk measures (`src/risk/measures.py`)

`value_at_risk` negates `np.percentile(returns, (1-confidence)*100)`;
`np.percentile` sorts the sample and linearly interpolates at the virtual
index `h = (n-1)*q/100` (numpy's default method). `conditional_value_at_risk`
negates the mean of the sample values `≤ -VaR`, or returns 0 when there are
none. -/

namespace Risk

/-- Ascending sort of the sample, as performed inside `np.percentile`. -/
def sortAsc (xs : List ℚ) : List ℚ := List.insertionSort (· ≤ ·) xs

/-- `np.percentile(xs, q)` with the default linear interpolation: virtual
index `h = (n-1)*q/100`, result `a[⌊h⌋] + (h-⌊h⌋)*(a[⌊h⌋+1] - a[⌊h⌋])`
(upper index clipped to `n-1`). -/
def percentile (xs : List ℚ) (q : ℚ) : ℚ :=
  let s := sortAsc xs
  let n := xs.length
  let h : ℚ := ((n : ℚ) - 1) * q / 100
  let i : ℕ := (Int.floor h).toNat
  let lo := s.getD i 0
  let hi := s.getD (min (i + 1) (n - 1)) 0
  lo + (h - (i : ℚ)) * (hi - lo)

/-- `value_at_risk(returns, confidence_level)`:
`-np.percentile(returns, (1 - confidence_level) * 100)`. -/
def value_at_risk (returns : List ℚ) (confidence_level : ℚ) : ℚ :=
  -(percentile returns ((1 - confidence_level) * 100))

/-- `conditional_value_at_risk(returns, confidence_level)`:
`-returns[returns <= -var].mean()` when that selection is nonempty,
else `0.0`. -/
def conditional_value_at_risk (returns : List ℚ) (confidence_level : ℚ) : ℚ :=
  let var := value_at_risk returns confidence_level
  let tail := returns.filter (fun x => x ≤ -var)
  if tail.isEmpty then 0 else -(tail.sum / (tail.length : ℚ))

end Risk

/-! ### Input validation of `run_backtest` (engine.py, lines 31-34)

The engine first copies the frame, then raises
`KeyError("DataFrame must contain 'Close' and 'signal' columns")` when either
column is absent, before any column is computed. -/

namespace Engine

/-- A pandas DataFrame restricted to what `run_backtest` reads: named numeric
columns. -/
structure DataFrame where
  cols : List (String × List ℚ)

/-- Column access, `df["name"]`; `none` models `name not in df.columns`. -/
def DataFrame.col? (df : DataFrame) (c : String) : Option (List ℚ) :=
  df.cols.lookup c

/-- The output assembled by `run_backtest`: the equity-curve column and the
metrics dictionary.  The square-root based diagnostics (`annualized_vol`,
`approx_annual_return`, `sharpe`) are irrational-valued and not referenced by
any claim, so the record keeps the exactly-representable entries.  The
`VaR_95`/`CVaR_95` entries are `none` when the `try` block falls into its
`except` arm (empty return sample). -/
structure BacktestOutput where
  equity_curve : List ℚ
  final_equity : ℚ
  total_return : ℚ
  total_return_pct : ℚ
  max_drawdown : ℚ
  n_trades : ℕ
  total_commission_paid : ℚ
  var_95 : Option ℚ
  cvar_95 : Option ℚ

/-- `run_backtest(df, capital, commission_per_trade, commission_pct)`: fails
fast with the `KeyError` message when `Close` or `signal` is missing, and
otherwise assembles the augmented frame and metrics from the per-row
columns. -/
def run_backtest (df : DataFrame) (capital cpt cpct : ℚ) :
    Except String BacktestOutput :=
  match df.col? "Close", df.col? "signal" with
  | some close, some sig =>
      let n := close.length
      let equityList := (List.range n).map (equity close sig capital cpt cpct)
      let sample := (List.range n).map (netRet close sig capital cpt cpct)
      Except.ok
        { equity_curve := equityList
          final_equity := equityList.getLastD 0
          total_return := equityList.getLastD 0 - capital
          total_return_pct := equityList.getLastD 0 / capital - 1
          max_drawdown := maxDrawdown close sig capital cpt cpct n
          n_trades := nTrades sig n
          total_commission_paid := totalCommission sig capital cpt cpct n
          var_95 := if n = 0 then none
            else some (Risk.value_at_risk sample (95/100))
          cvar_95 := if n = 0 then none
            else some (Risk.conditional_value_at_risk sample (95/100)) }
  | _, _ => Except.error "DataFrame must contain Close and signal columns"

end Engine

/-! ### The covered-call strategy backtest
(`src/openopt_riskengine/backtesting/strategies.py`, `CoveredCall.backtest`)

Entry and expiry dates are resolved to frame positions (`entry_idx`,
`expiry_idx`) before any cash accounting; with the frame's date index
strictly increasing, the pandas mask `equity.index >= expiry_idx` selects
exactly the positions `≥ expiry_idx`. -/

namespace Strategies

/-- `cash = capital - shares * entry_price + shares * self.premium`. -/
def coveredCallCash (close : List ℚ) (premium capital shares : ℚ)
    (entryIdx : ℕ) : ℚ :=
  capital - shares * close.getD entryIdx 0 + shares * premium

/-- `payoff = max(0.0, close[expiry] - strike) * shares`. -/
def coveredCallPayoff (close : List ℚ) (strike shares : ℚ)
    (expiryIdx : ℕ) : ℚ :=
  max 0 (close.getD expiryIdx 0 - strike) * shares

/-- The equity column: first `equity = shares * close + cash` on every row,
then the rows at positions `≥ expiry_idx` are overwritten with
`shares * close + cash_after_expiry` (the pandas `.loc` mask assignment). -/
def coveredCallEquity (close : List ℚ) (strike premium capital shares : ℚ)
    (entryIdx expiryIdx : ℕ) : List ℚ :=
  let cash := coveredCallCash close premium capital shares entryIdx
  let base := close.map (fun c => shares * c + cash)
  let cashAfter := cash - coveredCallPayoff close strike shares expiryIdx
  base.enum.map (fun p =>
    if expiryIdx ≤ p.1 then shares * close.getD p.1 0 + cashAfter else p.2)

end Strategies

/-! ### The straddle strategy backtest
(`src/openopt_riskengine/backtesting/strategies.py`, `Straddle.backtest`)

`Straddle.backtest` resolves `entry_date` and `expiry_date` to frame
positions exactly like `CoveredCall.backtest` (`pd.to_datetime` plus
nearest-index lookup), but then marks the position by intrinsic value on
every row: `equity = cash + contracts * (call_intrinsic + put_intrinsic)`.
Neither resolved position enters the equity or metric computation. -/

namespace Strategies

/-- `idx.get_indexer([d], method="nearest")`: the requested date (`none` for
the default) resolved to a frame position over the strictly increasing date
index. -/
def resolveIdx (dates : List ℤ) (d : Option ℤ) : ℕ :=
  match d with
  | none => dates.length - 1
  | some d0 =>
      if d0 ∈ dates then dates.indexOf d0
      else (((List.range dates.length).argmin
        (fun i => |dates.getD i 0 - d0|)).getD (dates.length - 1))

/-- Cumulative running maximum of a column (`Series.cummax()`). -/
def cummaxScan (prev : ℚ) : List ℚ → List ℚ
  | [] => []
  | x :: xs => max prev x :: cummaxScan (max prev x) xs

/-- `running_max = s.cummax()`. -/
def cummax : List ℚ → List ℚ
  | [] => []
  | x :: xs => x :: cummaxScan x xs

/-- `max_drawdown = ((s - s.cummax()) / s.cummax()).min()`. -/
def maxDrawdownOfCurve (eq : List ℚ) : ℚ :=
  listMin (List.zipWith (fun e m => (e - m) / m) eq (cummax eq))

/-- The metrics dictionary returned by `Straddle.backtest`. -/
structure StraddleMetrics where
  final_equity : ℚ
  total_return : ℚ
  total_return_pct : ℚ
  max_drawdown : ℚ
  n_trades : ℕ
  total_premium_paid : ℚ

/-- `Straddle.backtest(data, capital, entry_date, expiry_date, contracts)`:
returns the equity-curve column together with the metrics. The resolved
entry and expiry positions are computed (as in the source) but the daily
mark is intrinsic value only and no settlement happens at expiry. -/
def straddleBacktest (dates : List ℤ) (close : List ℚ)
    (strike premiumCall premiumPut capital contracts : ℚ)
    (entryDate expiryDate : Option ℤ) : List ℚ × StraddleMetrics :=
  let entryIdx := resolveIdx dates entryDate
  let expiryIdx := resolveIdx dates expiryDate
  let totalPremium := contracts * (premiumCall + premiumPut)
  let cash := capital - totalPremium
  let callIntrinsic := close.map (fun s => max (s - strike) 0)
  let putIntrinsic := close.map (fun s => max (strike - s) 0)
  let optionValue :=
    List.zipWith (fun a b => contracts * (a + b)) callIntrinsic putIntrinsic
  let equityList := optionValue.map (fun v => cash + v)
  (equityList,
    { final_equity := equityList.getLastD 0
      total_return := equityList.getLastD 0 - capital
      total_return_pct := equityList.getLastD 0 / capital - 1
      max_drawdown := maxDrawdownOfCurve equityList
      n_trades := 1
      total_premium_paid := totalPremium })

end Strategies

/-! ### The RSI strategy (`src/strategies/rsi_strategy.py`)

`RSIStrategy.generate_signals` computes `delta = Close.diff()` (NaN on the
first row), clips gains and losses, applies Wilder smoothing
`ewm(alpha=1/period, adjust=False).mean()` (which skips the leading NaN and
seeds at the first difference), replaces a zero average loss by NA so that
the RSI is NA there, fills NA RSI values with the neutral 50, and emits
`signal = 1` where `rsi <= oversold`, else `0`.  NA-propagation is modelled
with `Option`. -/

namespace RSI

/-- Recursive `ewm(..., adjust=False).mean()` step:
`a_t = (1 - alpha) * a_(t-1) + alpha * x_t`. -/
def ewmScan (a prev : ℚ) : List ℚ → List ℚ
  | [] => []
  | x :: xs =>
      let cur := (1 - a) * prev + a * x
      cur :: ewmScan a cur xs

/-- `Series.ewm(alpha=a, adjust=False).mean()` seeded at the first value. -/
def ewmAdjFalse (a : ℚ) : List ℚ → List ℚ
  | [] => []
  | x :: xs => x :: ewmScan a x xs

/-- `delta = df["Close"].diff()`, keeping only the defined rows 1..n-1. -/
def deltas (close : List ℚ) : List ℚ :=
  List.zipWith (fun a b => a - b) close.tail close

/-- `gain = delta.clip(lower=0.0)`. -/
def gains (close : List ℚ) : List ℚ := (deltas close).map (fun d => max d 0)

/-- `loss = -delta.clip(upper=0.0)`. -/
def losses (close : List ℚ) : List ℚ := (deltas close).map (fun d => max (-d) 0)

/-- `avg_gain = gain.ewm(alpha=1.0/period, adjust=False).mean()`, aligned to
frame rows 1..n-1 (row 0 is NaN and skipped by pandas ewm). -/
def avgGain (period : ℚ) (close : List ℚ) : List ℚ :=
  ewmAdjFalse (1 / period) (gains close)

/-- `avg_loss = loss.ewm(alpha=1.0/period, adjust=False).mean()`. -/
def avgLoss (period : ℚ) (close : List ℚ) : List ℚ :=
  ewmAdjFalse (1 / period) (losses close)

/-- `rs = avg_gain / avg_loss.replace(0, pd.NA)` and
`rsi = 100 - 100 / (1 + rs)` with NA propagation: the first row and every
row with a zero average loss are NA. -/
def rsiOpt (period : ℚ) (close : List ℚ) : List (Option ℚ) :=
  match close with
  | [] => []
  | _ :: _ =>
      none :: List.zipWith
        (fun ag al => if al = 0 then none else some (100 - 100 / (1 + ag / al)))
        (avgGain period close) (avgLoss period close)

/-- `df["rsi"] = df["rsi"].fillna(50.0)`. -/
def rsi (period : ℚ) (close : List ℚ) : List ℚ :=
  (rsiOpt period close).map (fun o => o.getD 50)

/-- `df["signal"] = 0; df.loc[df["rsi"] <= oversold, "signal"] = 1`. -/
def signal (period oversold : ℚ) (close : List ℚ) : List ℤ :=
  (rsi period close).map (fun x => if x ≤ oversold then 1 else 0)

end RSI

/-! ### Black-Scholes-Merton pricing (`src/models/black_scholes.py`)

`scipy.stats.norm.cdf` / `norm.pdf` are the standard normal CDF and density;
they are embedded as Lebesgue integrals of the unnormalized bell curve
`exp(-t^2/2)` divided by its total mass `sqrt(2*pi)`. -/

namespace BS

open MeasureTheory

/-- The unnormalized standard normal integrand `exp(-t^2/2)`. -/
noncomputable def gauss (t : ℝ) : ℝ := Real.exp (-(t ^ 2) / 2)

/-- `scipy.stats.norm.cdf`, the standard normal CDF. -/
noncomputable def normCdf (x : ℝ) : ℝ :=
  (∫ t in Set.Iic x, gauss t) / Real.sqrt (2 * Real.pi)

/-- `scipy.stats.norm.pdf`, the standard normal density. -/
noncomputable def normPdf (x : ℝ) : ℝ := gauss x / Real.sqrt (2 * Real.pi)

/-- The exponentially tilted tail mass `∫ s in [0,∞), exp(u*s - s^2/2)`:
`normCdf u = gauss u * tailTilt u / sqrt(2*pi)`. -/
noncomputable def tailTilt (u : ℝ) : ℝ :=
  ∫ s in Set.Ici (0:ℝ), Real.exp (u * s - s ^ 2 / 2)

/-- `d1(S, K, T, r, sigma)`: 0 when `T <= 0 or sigma <= 0`, else
`(log(S/K) + (r + sigma^2/2)*T) / (sigma*sqrt(T))`. -/
noncomputable def d1 (S K T r sigma : ℝ) : ℝ :=
  if T ≤ 0 ∨ sigma ≤ 0 then 0
  else (Real.log (S / K) + (r + sigma ^ 2 / 2) * T) / (sigma * Real.sqrt T)

/-- `d2(S, K, T, r, sigma)`: 0 on the boundary, else `d1 - sigma*sqrt(T)`. -/
noncomputable def d2 (S K T r sigma : ℝ) : ℝ :=
  if T ≤ 0 ∨ sigma ≤ 0 then 0
  else d1 S K T r sigma - sigma * Real.sqrt T

/-- `call_price(S, K, T, r, sigma)`: intrinsic at `T <= 0`, discounted
intrinsic at `sigma <= 0`, else `S*Φ(d1) - K*exp(-r*T)*Φ(d2)`, floored at 0. -/
noncomputable def call_price (S K T r sigma : ℝ) : ℝ :=
  if T ≤ 0 then max (S - K) 0
  else if sigma ≤ 0 then max (S - K * Real.exp (-r * T)) 0
  else max (S * normCdf (d1 S K T r sigma) -
    K * Real.exp (-r * T) * normCdf (d2 S K T r sigma)) 0

/-- `put_price(S, K, T, r, sigma)`: the symmetric put formula, floored at 0. -/
noncomputable def put_price (S K T r sigma : ℝ) : ℝ :=
  if T ≤ 0 then max (K - S) 0
  else if sigma ≤ 0 then max (K * Real.exp (-r * T) - S) 0
  else max (K * Real.exp (-r * T) * normCdf (-(d2 S K T r sigma)) -
    S * normCdf (-(d1 S K T r sigma))) 0

/-- `call_delta`: `1 if S > K else 0` on the boundary, else `Φ(d1)`. -/
noncomputable def call_delta (S K T r sigma : ℝ) : ℝ :=
  if T ≤ 0 ∨ sigma ≤ 0 then (if K < S then 1 else 0)
  else normCdf (d1 S K T r sigma)

/-- `put_delta`: `0 if S > K else -1` on the boundary, else `Φ(d1) - 1`. -/
noncomputable def put_delta (S K T r sigma : ℝ) : ℝ :=
  if T ≤ 0 ∨ sigma ≤ 0 then (if K < S then 0 else -1)
  else normCdf (d1 S K T r sigma) - 1

/-- `gamma`: 0 on the boundary, else `φ(d1) / (S*sigma*sqrt(T))`. -/
noncomputable def gamma (S K T r sigma : ℝ) : ℝ :=
  if T ≤ 0 ∨ sigma ≤ 0 then 0
  else normPdf (d1 S K T r sigma) / (S * sigma * Real.sqrt T)

end BS

/-! ### Implied volatility (`src/web/pages/option_chain.py`,
`calculate_implied_volatility`)

`scipy.optimize.brentq(objective, 0.001, 5.0, maxiter=100)` raises
`ValueError` when `objective(0.001)` and `objective(5.0)` have the same
strict sign (no root bracketed); the surrounding bare `except` converts any
exception into the sentinel `np.nan`.  The numerical root produced on
success is irrelevant to the claim and is abstracted by a `findRoot`
parameter; `np.nan` is modelled as `Option.none`. -/

namespace OptionChain

/-- `scipy.optimize.brentq` on a bracket `[a, b]`: an error when the bracket
does not straddle a sign change, otherwise the converged value. -/
noncomputable def brentq (findRoot : (ℝ → ℝ) → ℝ → ℝ → ℝ) (f : ℝ → ℝ)
    (a b : ℝ) : Except String ℝ :=
  if 0 < f a * f b then Except.error "f(a) and f(b) must have different signs"
  else Except.ok (findRoot f a b)

/-- The pricing objective closed over by `calculate_implied_volatility`:
`call_price(S,K,T,r,sigma) - option_price` (resp. `put_price`). -/
noncomputable def ivObjective (option_price S K T r : ℝ) (isCall : Bool)
    (sigma : ℝ) : ℝ :=
  if isCall then BS.call_price S K T r sigma - option_price
  else BS.put_price S K T r sigma - option_price

/-- `calculate_implied_volatility(option_price, S, K, T, r, option_type)`:
brentq over sigma in [0.001, 5.0], with the bare `except` returning the NaN
sentinel (`none`). -/
noncomputable def calculate_implied_volatility
    (findRoot : (ℝ → ℝ) → ℝ → ℝ → ℝ)
    (option_price S K T r : ℝ) (isCall : Bool) : Option ℝ :=
  match brentq findRoot (ivObjective option_price S K T r isCall)
      (1/1000) 5 with
  | Except.error _ => none
  | Except.ok iv => some iv

end OptionChain

/-! ## Theorems -/

theorem foldl_min_le_init (xs : List ℚ) (a : ℚ) : xs.foldl min a ≤ a := by
  induction xs generalizing a with
  | nil => simp
  | cons y ys ih =>
      calc (y :: ys).foldl min a = ys.foldl min (min a y) := rfl
        _ ≤ min a y := ih _
        _ ≤ a := min_le_left _ _

theorem foldl_min_le_mem (xs : List ℚ) (a x : ℚ) (hx : x ∈ xs) :
    xs.foldl min a ≤ x := by
  induction xs generalizing a with
  | nil => cases hx
  | cons y ys ih =>
      rcases List.mem_cons.mp hx with h | h
      · subst h
        calc (x :: ys).foldl min a = ys.foldl min (min a x) := rfl
          _ ≤ min a x := foldl_min_le_init _ _
          _ ≤ x := min_le_right _ _
      · exact ih _ h

theorem le_foldl_min (xs : List ℚ) (a b : ℚ) (ha : b ≤ a)
    (h : ∀ x ∈ xs, b ≤ x) : b ≤ xs.foldl min a := by
  induction xs generalizing a with
  | nil => exact ha
  | cons y ys ih =>
      exact ih (min a y) (le_min ha (h y (List.mem_cons_self _ _)))
        (fun x hx => h x (List.mem_cons_of_mem _ hx))

theorem listMin_le (l : List ℚ) (x : ℚ) (hx : x ∈ l) : listMin l ≤ x := by
  cases l with
  | nil => cases hx
  | cons y ys =>
      rcases List.mem_cons.mp hx with h | h
      · subst h; exact foldl_min_le_init _ _
      · exact foldl_min_le_mem _ _ _ h

theorem le_listMin (l : List ℚ) (b : ℚ) (hl : l ≠ [])
    (h : ∀ x ∈ l, b ≤ x) : b ≤ listMin l := by
  cases l with
  | nil => cases hl rfl
  | cons y ys =>
      exact le_foldl_min _ _ _ (h y (List.mem_cons_self _ _))
        (fun x hx => h x (List.mem_cons_of_mem _ hx))

namespace Engine

/-! #### Basic per-row facts -/

theorem pos_eq_zero (sig : List ℚ) (hz : ∀ x ∈ sig, x = 0) (t : ℕ) :
    pos sig t = 0 := by
  unfold pos
  rcases Nat.lt_or_ge t sig.length with h | h
  · rw [List.getD_eq_getElem _ _ h]; exact hz _ (List.getElem_mem h)
  · exact List.getD_eq_default _ _ h

theorem execPos_eq_zero (sig : List ℚ) (hz : ∀ x ∈ sig, x = 0) (t : ℕ) :
    execPos sig t = 0 := by
  unfold execPos
  split
  · rfl
  · exact pos_eq_zero sig hz _

theorem posChange_eq_zero (sig : List ℚ) (hz : ∀ x ∈ sig, x = 0) (t : ℕ) :
    posChange sig t = 0 := by
  unfold posChange
  split
  · rfl
  · rw [pos_eq_zero sig hz, pos_eq_zero sig hz, sub_self]

theorem execChange_eq_zero (sig : List ℚ) (hz : ∀ x ∈ sig, x = 0) (t : ℕ) :
    execChange sig t = 0 := by
  unfold execChange
  split
  · rfl
  · exact posChange_eq_zero sig hz _

theorem tradeAmt_eq_zero (sig : List ℚ) (hz : ∀ x ∈ sig, x = 0) (t : ℕ) :
    tradeAmt sig t = 0 := by
  unfold tradeAmt
  rw [execChange_eq_zero sig hz, abs_zero]

theorem netRet_eq_zero (close sig : List ℚ) (capital cpt cpct : ℚ)
    (hz : ∀ x ∈ sig, x = 0) (t : ℕ) :
    netRet close sig capital cpt cpct t = 0 := by
  unfold netRet stratRet costRet tradeCost tradeEvent
  rw [execPos_eq_zero sig hz, tradeAmt_eq_zero sig hz]
  simp

/-- With an all-zero signal column the equity curve is constant at the
starting capital. -/
theorem equity_const (close sig : List ℚ) (capital cpt cpct : ℚ)
    (hz : ∀ x ∈ sig, x = 0) (t : ℕ) :
    equity close sig capital cpt cpct t = capital := by
  induction t with
  | zero => rw [equity, netRet_eq_zero close sig capital cpt cpct hz]; ring
  | succ t ih =>
      rw [equity, netRet_eq_zero close sig capital cpt cpct hz, ih]; ring

/-! #### First-row facts, for any signal -/

theorem netRet_zero_row (close sig : List ℚ) (capital cpt cpct : ℚ) :
    netRet close sig capital cpt cpct 0 = 0 := by
  unfold netRet stratRet execPos costRet tradeCost tradeEvent tradeAmt execChange
  simp

theorem equity_zero_row (close sig : List ℚ) (capital cpt cpct : ℚ) :
    equity close sig capital cpt cpct 0 = capital := by
  rw [equity, netRet_zero_row]; ring

/-! #### Running-max and drawdown facts -/

theorem equity_le_runMax (close sig : List ℚ) (capital cpt cpct : ℚ) (t : ℕ) :
    equity close sig capital cpt cpct t ≤ runMax close sig capital cpt cpct t := by
  cases t with
  | zero => exact le_of_eq rfl
  | succ t => exact le_max_right _ _

theorem runMax_le_succ (close sig : List ℚ) (capital cpt cpct : ℚ) (t : ℕ) :
    runMax close sig capital cpt cpct t ≤ runMax close sig capital cpt cpct (t + 1) :=
  le_max_left _ _

theorem capital_le_runMax (close sig : List ℚ) (capital cpt cpct : ℚ) (t : ℕ) :
    capital ≤ runMax close sig capital cpt cpct t := by
  induction t with
  | zero => rw [runMax, equity_zero_row]
  | succ t ih => exact le_trans ih (runMax_le_succ _ _ _ _ _ _)

theorem runMax_pos (close sig : List ℚ) (capital cpt cpct : ℚ)
    (hcap : 0 < capital) (t : ℕ) :
    0 < runMax close sig capital cpt cpct t :=
  lt_of_lt_of_le hcap (capital_le_runMax _ _ _ _ _ _)

theorem drawdown_nonpos (close sig : List ℚ) (capital cpt cpct : ℚ)
    (hcap : 0 < capital) (t : ℕ) :
    drawdown close sig capital cpt cpct t ≤ 0 := by
  unfold drawdown
  apply div_nonpos_of_nonpos_of_nonneg
  · exact sub_nonpos.mpr (equity_le_runMax _ _ _ _ _ _)
  · exact le_of_lt (runMax_pos _ _ _ _ _ hcap _)

theorem drawdown_zero_row (close sig : List ℚ) (capital cpt cpct : ℚ) :
    drawdown close sig capital cpt cpct 0 = 0 := by
  unfold drawdown runMax
  rw [sub_self, zero_div]

theorem drawdown_eq_zero_iff (close sig : List ℚ) (capital cpt cpct : ℚ)
    (hcap : 0 < capital) (t : ℕ) :
    drawdown close sig capital cpt cpct t = 0 ↔
      equity close sig capital cpt cpct t = runMax close sig capital cpt cpct t := by
  unfold drawdown
  rw [div_eq_zero_iff]
  constructor
  · rintro (h | h)
    · exact sub_eq_zero.mp h
    · exact absurd h (ne_of_gt (runMax_pos _ _ _ _ _ hcap _))
  · intro h; exact Or.inl (by rw [h, sub_self])

theorem nTrades_eq_zero (sig : List ℚ) (hz : ∀ x ∈ sig, x = 0) (n : ℕ) :
    nTrades sig n = 0 := by
  unfold nTrades
  apply List.sum_eq_zero
  intro x hx
  rcases List.mem_map.mp hx with ⟨t, _, rfl⟩
  rw [tradeAmt_eq_zero sig hz]
  simp

/-- On a nondecreasing equity curve the running maximum coincides with the
equity itself on every row. -/
theorem runMax_eq_equity_of_nondecr (close sig : List ℚ) (capital cpt cpct : ℚ)
    (n : ℕ)
    (h : ∀ t, t + 1 < n → equity close sig capital cpt cpct t ≤
      equity close sig capital cpt cpct (t + 1)) :
    ∀ s, s < n → runMax close sig capital cpt cpct s =
      equity close sig capital cpt cpct s := by
  intro s
  induction s with
  | zero => intro _; rfl
  | succ s ih =>
      intro hs
      rw [runMax, ih (Nat.lt_of_succ_lt hs), max_eq_right (h s hs)]

end Engine

/-- C1: for every price series whose signal column is identically 0 (with
positive prices and positive starting capital, the domain on which the
floating-point engine is faithfully modelled by exact arithmetic), the
equity curve produced by `run_backtest` equals the starting capital on
every row, and the reported `n_trades` metric is 0. -/
theorem C1_zero_signal_flat_equity (close sig : List ℚ) (capital cpt cpct : ℚ)
    (hz : ∀ x ∈ sig, x = 0) (hclose : ∀ c ∈ close, 0 < c) (hcap : 0 < capital) :
    (∀ t, t < close.length →
      Engine.equity close sig capital cpt cpct t = capital) ∧
      Engine.nTrades sig close.length = 0 :=
  ⟨fun t _ => Engine.equity_const close sig capital cpt cpct hz t,
   Engine.nTrades_eq_zero sig hz close.length⟩

/-- Witness for C1 at the concrete frame Close = [1, 2], signal = [0, 0],
capital = 1, zero commissions. -/
theorem C1_zero_signal_flat_equity_witness :
    Engine.equity [1, 2] [0, 0] 1 0 0 1 = 1 ∧ Engine.nTrades [0, 0] 2 = 0 := by
  have h := C1_zero_signal_flat_equity [1, 2] [0, 0] 1 0 0
    (by intro x hx; rcases List.mem_cons.mp hx with rfl | hx; · rfl
        rcases List.mem_cons.mp hx with rfl | hx; · rfl
        cases hx)
    (by intro c hc; rcases List.mem_cons.mp hc with rfl | hc; · norm_num
        rcases List.mem_cons.mp hc with rfl | hc; · norm_num
        cases hc)
    (by norm_num)
  exact ⟨h.1 1 (by norm_num), h.2⟩

/-- C2 is false as stated: with starting capital −1, prices [1, 2, 1] and an
all-ones signal, the reported `max_drawdown` is 0 while the equity curve,
[−1, −2, −1], strictly decreases from row 0 to row 1; the claimed
equivalence between `max_drawdown = 0` and a nondecreasing equity curve
fails. -/
theorem C2_counterexample :
    Engine.maxDrawdown [1, 2, 1] [1, 1, 1] (-1) 0 0 3 = 0 ∧
      Engine.equity [1, 2, 1] [1, 1, 1] (-1) 0 0 1 <
        Engine.equity [1, 2, 1] [1, 1, 1] (-1) 0 0 0 := by
  constructor
  · norm_num [Engine.maxDrawdown, listMin, List.range_succ, Engine.drawdown,
      Engine.runMax, Engine.equity, Engine.netRet, Engine.stratRet, Engine.ret,
      Engine.execPos, Engine.pos, Engine.costRet, Engine.tradeCost,
      Engine.tradeEvent, Engine.tradeAmt, Engine.execChange, Engine.posChange,
      min_def]
  · norm_num [Engine.equity, Engine.netRet, Engine.stratRet, Engine.ret,
      Engine.execPos, Engine.pos, Engine.costRet, Engine.tradeCost,
      Engine.tradeEvent, Engine.tradeAmt, Engine.execChange, Engine.posChange]

/-- C2 (amended): for every nonempty input with positive starting capital the
reported `max_drawdown` is ≤ 0, and it is 0 exactly when the equity curve is
nondecreasing over the whole series.  (With nonpositive starting capital the
running maximum can be nonpositive and the equivalence fails, see the
counterexample.) -/
theorem C2_maxDrawdown_amended (close sig : List ℚ) (capital cpt cpct : ℚ)
    (hne : close ≠ []) (hcap : 0 < capital) :
    Engine.maxDrawdown close sig capital cpt cpct close.length ≤ 0 ∧
      (Engine.maxDrawdown close sig capital cpt cpct close.length = 0 ↔
        ∀ t, t + 1 < close.length →
          Engine.equity close sig capital cpt cpct t ≤
            Engine.equity close sig capital cpt cpct (t + 1)) := by
  set n := close.length with hn
  have hnpos : 0 < n := List.length_pos.mpr hne
  set l := (List.range n).map (Engine.drawdown close sig capital cpt cpct) with hl
  have hmem : Engine.drawdown close sig capital cpt cpct 0 ∈ l :=
    List.mem_map_of_mem _ (List.mem_range.mpr hnpos)
  have hmin_le : Engine.maxDrawdown close sig capital cpt cpct n ≤ 0 := by
    have := listMin_le l _ hmem
    rwa [Engine.drawdown_zero_row] at this
  refine ⟨hmin_le, ?_, ?_⟩
  · -- max_drawdown = 0 → equity nondecreasing
    intro h0 t ht
    have hdd : ∀ s, s < n → Engine.drawdown close sig capital cpt cpct s = 0 := by
      intro s hs
      have h1 : Engine.maxDrawdown close sig capital cpt cpct n ≤
          Engine.drawdown close sig capital cpt cpct s :=
        listMin_le l _ (List.mem_map_of_mem _ (List.mem_range.mpr hs))
      have h2 := Engine.drawdown_nonpos close sig capital cpt cpct hcap s
      have h3 : (0 : ℚ) ≤ Engine.drawdown close sig capital cpt cpct s := by
        rw [← h0]; exact h1
      exact le_antisymm h2 h3
    have he1 : Engine.equity close sig capital cpt cpct t =
        Engine.runMax close sig capital cpt cpct t :=
      (Engine.drawdown_eq_zero_iff close sig capital cpt cpct hcap t).mp
        (hdd t (Nat.lt_of_succ_lt ht))
    have he2 : Engine.equity close sig capital cpt cpct (t + 1) =
        Engine.runMax close sig capital cpt cpct (t + 1) :=
      (Engine.drawdown_eq_zero_iff close sig capital cpt cpct hcap (t + 1)).mp
        (hdd (t + 1) ht)
    rw [he1, he2]
    exact Engine.runMax_le_succ close sig capital cpt cpct t
  · -- equity nondecreasing → max_drawdown = 0
    intro h
    have hrm := Engine.runMax_eq_equity_of_nondecr close sig capital cpt cpct n h
    have hdd : ∀ x ∈ l, x = 0 := by
      intro x hx
      rcases List.mem_map.mp hx with ⟨s, hs, rfl⟩
      unfold Engine.drawdown
      rw [hrm s (List.mem_range.mp hs), sub_self, zero_div]
    have hlne : l ≠ [] := by
      apply List.ne_nil_of_length_pos
      rw [hl, List.length_map, List.length_range]
      exact hnpos
    have h1 : (0 : ℚ) ≤ Engine.maxDrawdown close sig capital cpt cpct n :=
      le_listMin l 0 hlne (fun x hx => le_of_eq (hdd x hx).symm)
    exact le_antisymm hmin_le h1

/-- Witness for the amended C2 at Close = [1, 2], signal = [0, 0], capital 1. -/
theorem C2_maxDrawdown_amended_witness :
    Engine.maxDrawdown [1, 2] [0, 0] 1 0 0 2 ≤ 0 :=
  (C2_maxDrawdown_amended [1, 2] [0, 0] 1 0 0 (by simp) (by norm_num)).1

namespace Risk

/-- The interpolated percentile never goes below the sample minimum: some
sample value is `≤ percentile`. -/
theorem exists_mem_le_percentile (xs : List ℚ) (q : ℚ) (hne : xs ≠ [])
    (hq0 : 0 ≤ q) (hq1 : q ≤ 100) :
    ∃ x ∈ xs, x ≤ percentile xs q := by
  have hperm : List.Perm (sortAsc xs) xs := List.perm_insertionSort _ xs
  have hsorted : List.Sorted (· ≤ ·) (sortAsc xs) := List.sorted_insertionSort _ xs
  have hslen : (sortAsc xs).length = xs.length := hperm.length_eq
  have hn : 1 ≤ xs.length := List.length_pos.mpr hne
  set n := xs.length with hndef
  set hq : ℚ := ((n : ℚ) - 1) * q / 100 with hqdef
  have hn1 : (0 : ℚ) ≤ (n : ℚ) - 1 := by
    have : (1 : ℚ) ≤ (n : ℚ) := by exact_mod_cast hn
    linarith
  have hh0 : 0 ≤ hq := by
    apply div_nonneg (mul_nonneg hn1 hq0) (by norm_num)
  have hh1 : hq ≤ (n : ℚ) - 1 := by
    rw [hqdef, div_le_iff (by norm_num : (0:ℚ) < 100)]
    calc ((n : ℚ) - 1) * q ≤ ((n : ℚ) - 1) * 100 :=
          mul_le_mul_of_nonneg_left hq1 hn1
      _ = ((n : ℚ) - 1) * 100 := rfl
  have hiZ0 : 0 ≤ Int.floor hq := Int.floor_nonneg.mpr hh0
  set i := (Int.floor hq).toNat with hidef
  have hicast : (i : ℚ) = ((Int.floor hq : ℤ) : ℚ) := by
    rw [hidef]
    exact_mod_cast congrArg (fun z : ℤ => (z : ℚ)) (Int.toNat_of_nonneg hiZ0)
  have hile : (i : ℚ) ≤ hq := by rw [hicast]; exact Int.floor_le hq
  have hi_lt_n : i < n := by
    have hlt : (i : ℚ) < (n : ℚ) := lt_of_le_of_lt (le_trans hile hh1) (by linarith)
    exact_mod_cast hlt
  set j := min (i + 1) (n - 1) with hjdef
  have hij : i ≤ j := le_min (Nat.le_succ i) (Nat.le_pred_of_lt hi_lt_n)
  have hj_lt_n : j < n :=
    lt_of_le_of_lt (min_le_right _ _) (Nat.sub_lt (lt_of_lt_of_le Nat.one_pos hn) Nat.one_pos)
  have hi_lt_s : i < (sortAsc xs).length := by rw [hslen]; exact hi_lt_n
  have hj_lt_s : j < (sortAsc xs).length := by rw [hslen]; exact hj_lt_n
  have hlo : (sortAsc xs).getD i 0 = (sortAsc xs).get ⟨i, hi_lt_s⟩ :=
    List.getD_eq_getElem _ _ hi_lt_s
  have hhi : (sortAsc xs).getD j 0 = (sortAsc xs).get ⟨j, hj_lt_s⟩ :=
    List.getD_eq_getElem _ _ hj_lt_s
  have hlohi : (sortAsc xs).get ⟨i, hi_lt_s⟩ ≤ (sortAsc xs).get ⟨j, hj_lt_s⟩ :=
    hsorted.rel_get_of_le (by exact hij)
  refine ⟨(sortAsc xs).get ⟨i, hi_lt_s⟩, hperm.subset (List.get_mem _ _ _), ?_⟩
  have hpe : percentile xs q =
      (sortAsc xs).getD i 0 + (hq - (i : ℚ)) *
        ((sortAsc xs).getD j 0 - (sortAsc xs).getD i 0) := by
    rw [hjdef, hidef, hqdef, hndef]
    rfl
  rw [hpe, hlo, hhi]
  have h1 : 0 ≤ hq - (i : ℚ) := sub_nonneg.mpr hile
  have h2 : 0 ≤ (sortAsc xs).get ⟨j, hj_lt_s⟩ - (sortAsc xs).get ⟨i, hi_lt_s⟩ :=
    sub_nonneg.mpr hlohi
  nlinarith [mul_nonneg h1 h2]

end Risk

/-- C3: for every non-empty sample and confidence level in [0, 1],
`conditional_value_at_risk(sample, c) ≥ value_at_risk(sample, c)`: the
linear-interpolation percentile is bounded below by the sample minimum, so
the `≤ -VaR` selection is never empty, and its mean is at most `-VaR`. -/
theorem C3_cvar_ge_var (xs : List ℚ) (c : ℚ) (hne : xs ≠ [])
    (hc0 : 0 ≤ c) (hc1 : c ≤ 1) :
    Risk.value_at_risk xs c ≤ Risk.conditional_value_at_risk xs c := by
  obtain ⟨x0, hx0mem, hx0le⟩ :=
    Risk.exists_mem_le_percentile xs ((1 - c) * 100) hne
      (by nlinarith) (by nlinarith)
  set v := Risk.value_at_risk xs c with hv
  have hx0v : x0 ≤ -v := by
    rw [hv]; unfold Risk.value_at_risk; rw [neg_neg]; exact hx0le
  set tail := xs.filter (fun x => x ≤ -v) with htail
  have hx0tail : x0 ∈ tail := by
    rw [htail]
    exact List.mem_filter.mpr ⟨hx0mem, by simpa using hx0v⟩
  have htne : tail ≠ [] := List.ne_nil_of_mem hx0tail
  have htlen : 0 < tail.length := List.length_pos.mpr htne
  have hbound : ∀ y ∈ tail, y ≤ -v := by
    intro y hy
    rw [htail] at hy
    have := (List.mem_filter.mp hy).2
    simpa using this
  have hsum : tail.sum ≤ (tail.length : ℚ) * (-v) := by
    have := List.sum_le_card_nsmul tail (-v) hbound
    simpa [nsmul_eq_mul] using this
  have hmean : tail.sum / (tail.length : ℚ) ≤ -v := by
    rw [div_le_iff (by exact_mod_cast htlen)]
    linarith
  have hcvar : Risk.conditional_value_at_risk xs c =
      if tail.isEmpty then 0 else -(tail.sum / (tail.length : ℚ)) := by
    rw [htail, hv]
    rfl
  rw [hcvar, if_neg (by simpa [List.isEmpty_iff] using htne)]
  linarith

/-- Witness for C3 at the sample [1, -1] and confidence level 0.95. -/
theorem C3_cvar_ge_var_witness :
    Risk.value_at_risk [1, -1] (95/100) ≤
      Risk.conditional_value_at_risk [1, -1] (95/100) :=
  C3_cvar_ge_var [1, -1] (95/100) (by simp) (by norm_num) (by norm_num)

/-- C6: `run_backtest` returns the validation error exactly when the `Close`
column or the `signal` column is absent; in the error case nothing is
computed (the result is only the error value), and when both columns are
present no validation error is raised. -/
theorem C6_validation_error_iff_missing_column (df : Engine.DataFrame)
    (capital cpt cpct : ℚ) :
    (∃ msg, Engine.run_backtest df capital cpt cpct = Except.error msg) ↔
      (df.col? "Close" = none ∨ df.col? "signal" = none) := by
  unfold Engine.run_backtest
  rcases h1 : df.col? "Close" with _ | close <;>
    rcases h2 : df.col? "signal" with _ | sig <;> simp

namespace Strategies

theorem coveredCallEquity_getD (close : List ℚ)
    (strike premium capital shares : ℚ) (entryIdx expiryIdx t : ℕ)
    (ht : t < close.length) :
    (coveredCallEquity close strike premium capital shares entryIdx
        expiryIdx).getD t 0 =
      if expiryIdx ≤ t then
        shares * close.getD t 0 +
          (coveredCallCash close premium capital shares entryIdx -
            coveredCallPayoff close strike shares expiryIdx)
      else shares * close.getD t 0 +
        coveredCallCash close premium capital shares entryIdx := by
  unfold coveredCallEquity
  have hlen : t < ((close.map (fun c => shares * c +
      coveredCallCash close premium capital shares entryIdx)).enum.map
        (fun p : ℕ × ℚ =>
          if expiryIdx ≤ p.1 then shares * close.getD p.1 0 +
            (coveredCallCash close premium capital shares entryIdx -
              coveredCallPayoff close strike shares expiryIdx)
          else p.2)).length := by
    rw [List.length_map, List.enum_length, List.length_map]
    exact ht
  rw [List.getD_eq_getElem _ _ hlen]
  rw [List.getElem_map, List.getElem_enum]
  by_cases h : expiryIdx ≤ t
  · simp only [h, if_true]
  · simp only [h, if_false]
    rw [List.getElem_map, List.getD_eq_getElem _ _ ht]

end Strategies

/-- C7: in the covered-call backtest, on every row strictly before the
resolved expiry position the equity is `shares * close + cash` with
`cash = capital - shares * entry_price + shares * premium`, and on every row
at or after expiry it is `shares * close + cash - max(0, close_expiry -
strike) * shares`. -/
theorem C7_covered_call_equity (close : List ℚ)
    (strike premium capital shares : ℚ) (entryIdx expiryIdx t : ℕ)
    (ht : t < close.length) :
    (t < expiryIdx →
      (Strategies.coveredCallEquity close strike premium capital shares
          entryIdx expiryIdx).getD t 0 =
        shares * close.getD t 0 +
          (capital - shares * close.getD entryIdx 0 + shares * premium)) ∧
    (expiryIdx ≤ t →
      (Strategies.coveredCallEquity close strike premium capital shares
          entryIdx expiryIdx).getD t 0 =
        shares * close.getD t 0 +
          (capital - shares * close.getD entryIdx 0 + shares * premium) -
          max 0 (close.getD expiryIdx 0 - strike) * shares) := by
  rw [Strategies.coveredCallEquity_getD close strike premium capital shares
    entryIdx expiryIdx t ht]
  constructor
  · intro hlt
    rw [if_neg (not_le.mpr hlt)]
    unfold Strategies.coveredCallCash
    rfl
  · intro hle
    rw [if_pos hle]
    unfold Strategies.coveredCallCash Strategies.coveredCallPayoff
    ring

/-- Witness for C7 on the two-row frame Close = [10, 12] with strike 11,
premium 1, capital 100, one share, entry at row 0 and expiry at row 1. -/
theorem C7_covered_call_equity_witness :
    (Strategies.coveredCallEquity [10, 12] 11 1 100 1 0 1).getD 0 0 =
        1 * ([10, 12] : List ℚ).getD 0 0 +
          (100 - 1 * ([10, 12] : List ℚ).getD 0 0 + 1 * 1) ∧
      (Strategies.coveredCallEquity [10, 12] 11 1 100 1 0 1).getD 1 0 =
        1 * ([10, 12] : List ℚ).getD 1 0 +
          (100 - 1 * ([10, 12] : List ℚ).getD 0 0 + 1 * 1) -
          max 0 (([10, 12] : List ℚ).getD 1 0 - 11) * 1 :=
  ⟨(C7_covered_call_equity [10, 12] 11 1 100 1 0 1 0 (by norm_num)).1
      (by norm_num),
   (C7_covered_call_equity [10, 12] 11 1 100 1 0 1 1 (by norm_num)).2
      (by norm_num)⟩

/-- C10: the straddle backtest's entire output, equity curve and metrics
alike, does not depend on the `expiry_date` argument: runs differing only
in `expiry_date` (and hence in the resolved expiry position) coincide,
because the daily mark is intrinsic value on every row and no settlement is
performed at the resolved expiry position. -/
theorem C10_straddle_independent_of_expiry (dates : List ℤ) (close : List ℚ)
    (strike premiumCall premiumPut capital contracts : ℚ)
    (entryDate expiry1 expiry2 : Option ℤ) :
    Strategies.straddleBacktest dates close strike premiumCall premiumPut
        capital contracts entryDate expiry1 =
      Strategies.straddleBacktest dates close strike premiumCall premiumPut
        capital contracts entryDate expiry2 := rfl

namespace RSI

theorem length_ewmScan (a prev : ℚ) (l : List ℚ) :
    (ewmScan a prev l).length = l.length := by
  induction l generalizing prev with
  | nil => rfl
  | cons x xs ih => simp [ewmScan, ih]

theorem length_ewmAdjFalse (a : ℚ) (l : List ℚ) :
    (ewmAdjFalse a l).length = l.length := by
  cases l with
  | nil => rfl
  | cons x xs => simp [ewmAdjFalse, length_ewmScan]

theorem length_deltas (close : List ℚ) :
    (deltas close).length = close.length - 1 := by
  unfold deltas
  rw [List.length_zipWith, List.length_tail]
  exact min_eq_left (Nat.sub_le _ _)

theorem length_avgGain (period : ℚ) (close : List ℚ) :
    (avgGain period close).length = close.length - 1 := by
  unfold avgGain gains
  rw [length_ewmAdjFalse, List.length_map, length_deltas]

theorem length_avgLoss (period : ℚ) (close : List ℚ) :
    (avgLoss period close).length = close.length - 1 := by
  unfold avgLoss losses
  rw [length_ewmAdjFalse, List.length_map, length_deltas]

theorem length_rsiOpt (period : ℚ) (close : List ℚ) :
    (rsiOpt period close).length = close.length := by
  cases close with
  | nil => rfl
  | cons c cs =>
      show (none :: List.zipWith _ (avgGain period (c :: cs))
        (avgLoss period (c :: cs))).length = (c :: cs).length
      rw [List.length_cons, List.length_zipWith, length_avgGain, length_avgLoss]
      simp

theorem length_rsi (period : ℚ) (close : List ℚ) :
    (rsi period close).length = close.length := by
  unfold rsi
  rw [List.length_map, length_rsiOpt]

end RSI

/-- C8: in the RSI strategy, every frame row (past the seed row) whose
Wilder-smoothed average loss is exactly 0 carries the substituted neutral
RSI value 50; and on every row the emitted signal is 1 exactly when the
row's RSI is at most the oversold threshold, and is 0 otherwise. -/
theorem C8_rsi_neutral_and_signal (close : List ℚ) (period oversold : ℚ)
    (t : ℕ) (ht : t < close.length) :
    (1 ≤ t → (RSI.avgLoss period close).getD (t - 1) 0 = 0 →
      (RSI.rsi period close).getD t 0 = 50) ∧
    ((RSI.signal period oversold close).getD t 0 = 1 ↔
      (RSI.rsi period close).getD t 0 ≤ oversold) ∧
    ((RSI.rsi period close).getD t 0 ≤ oversold ∨
      (RSI.signal period oversold close).getD t 0 = 0) := by
  have htr : t < (RSI.rsi period close).length := by
    rw [RSI.length_rsi]; exact ht
  have hts : t < (RSI.signal period oversold close).length := by
    unfold RSI.signal
    rw [List.length_map]; exact htr
  have hsig : (RSI.signal period oversold close).getD t 0 =
      if (RSI.rsi period close).getD t 0 ≤ oversold then 1 else 0 := by
    have htm : t < (List.map (fun x : ℚ => if x ≤ oversold then (1 : ℤ) else 0)
        (RSI.rsi period close)).length := by
      rw [List.length_map]; exact htr
    show (List.map (fun x : ℚ => if x ≤ oversold then (1 : ℤ) else 0)
      (RSI.rsi period close)).getD t 0 = _
    rw [List.getD_eq_getElem _ _ htm, List.getElem_map,
      List.getD_eq_getElem _ _ htr]
  refine ⟨?_, ?_, ?_⟩
  · intro h1 hzero
    have hto : t < (RSI.rsiOpt period close).length := by
      rw [RSI.length_rsiOpt]; exact ht
    have hstep : (RSI.rsi period close).getD t 0 =
        ((RSI.rsiOpt period close).getD t none).getD 50 := by
      unfold RSI.rsi
      rw [List.getD_eq_getElem _ _ (by rw [List.length_map]; exact hto),
        List.getElem_map, List.getD_eq_getElem _ _ hto]
    rw [hstep]
    rcases close with _ | ⟨c, cs⟩
    · simp at ht
    · -- the row index is t = (t-1) + 1, landing in the zipWith tail
      obtain ⟨k, rfl⟩ : ∃ k, t = k + 1 := ⟨t - 1, (Nat.succ_pred_eq_of_pos h1).symm⟩
      have hcons : RSI.rsiOpt period (c :: cs) =
          none :: List.zipWith
            (fun ag al => if al = 0 then none
              else some (100 - 100 / (1 + ag / al)))
            (RSI.avgGain period (c :: cs)) (RSI.avgLoss period (c :: cs)) := rfl
      rw [hcons, List.getD_cons_succ]
      have hkl : k < (RSI.avgLoss period (c :: cs)).length := by
        rw [RSI.length_avgLoss]
        simpa using Nat.lt_of_succ_lt_succ ht
      have hkz : k < (List.zipWith
          (fun ag al => if al = 0 then none
            else some (100 - 100 / (1 + ag / al)))
          (RSI.avgGain period (c :: cs)) (RSI.avgLoss period (c :: cs))).length := by
        rw [List.length_zipWith, RSI.length_avgGain, RSI.length_avgLoss, min_self]
        simpa using Nat.lt_of_succ_lt_succ ht
      rw [List.getD_eq_getElem _ _ hkz, List.getElem_zipWith]
      have hz : (RSI.avgLoss period (c :: cs))[k] = 0 := by
        rw [← List.getD_eq_getElem _ (0 : ℚ) hkl]
        simpa using hzero
      rw [hz, if_pos rfl]
      rfl
  · rw [hsig]
    constructor
    · intro h
      by_contra hc
      rw [if_neg hc] at h
      exact absurd h (by norm_num)
    · intro h; rw [if_pos h]
  · rw [hsig]
    by_cases h : (RSI.rsi period close).getD t 0 ≤ oversold
    · exact Or.inl h
    · exact Or.inr (by rw [if_neg h])

/-- Witness for C8 on the two-row frame Close = [1, 1] (flat price, zero
average loss on row 1) with period 14 and oversold threshold 30. -/
theorem C8_rsi_neutral_and_signal_witness :
    (RSI.rsi 14 [1, 1]).getD 1 0 = 50 ∧
      ((RSI.signal 14 30 [1, 1]).getD 1 0 = 1 ↔
        (RSI.rsi 14 [1, 1]).getD 1 0 ≤ 30) := by
  have h := C8_rsi_neutral_and_signal [1, 1] 14 30 1 (by norm_num)
  refine ⟨h.1 (by norm_num) ?_, h.2.1⟩
  show (RSI.avgLoss 14 [1, 1]).getD 0 0 = 0
  norm_num [RSI.avgLoss, RSI.ewmAdjFalse, RSI.losses, RSI.deltas, RSI.ewmScan,
    List.zipWith]

namespace BS

open MeasureTheory

theorem gauss_pos (t : ℝ) : 0 < gauss t := Real.exp_pos _

theorem gauss_neg_arg (t : ℝ) : gauss (-t) = gauss t := by
  unfold gauss; rw [neg_pow]; norm_num

theorem sqrt_two_pi_pos : 0 < Real.sqrt (2 * Real.pi) :=
  Real.sqrt_pos.mpr (by positivity)

theorem integrable_gauss : Integrable gauss := by
  have h := integrable_exp_neg_mul_sq (by norm_num : (0:ℝ) < 1/2)
  have heq : (fun x : ℝ => Real.exp (-(1/2) * x ^ 2)) = gauss := by
    funext x; unfold gauss; congr 1; ring
  rwa [heq] at h

theorem integral_gauss_total : (∫ t, gauss t) = Real.sqrt (2 * Real.pi) := by
  have h := integral_gaussian (1/2 : ℝ)
  have heq : (fun x : ℝ => Real.exp (-(1/2) * x ^ 2)) = gauss := by
    funext x; unfold gauss; congr 1; ring
  rw [heq] at h
  rw [h]
  congr 1
  ring

theorem setIntegral_gauss_nonneg (s : Set ℝ) : 0 ≤ ∫ t in s, gauss t :=
  integral_nonneg (fun t => le_of_lt (gauss_pos t))

theorem normCdf_nonneg (x : ℝ) : 0 ≤ normCdf x :=
  div_nonneg (setIntegral_gauss_nonneg _) (Real.sqrt_nonneg _)

theorem normCdf_le_one (x : ℝ) : normCdf x ≤ 1 := by
  unfold normCdf
  rw [div_le_one sqrt_two_pi_pos, ← integral_gauss_total]
  exact setIntegral_le_integral integrable_gauss
    (Filter.Eventually.of_forall fun t => le_of_lt (gauss_pos t))

theorem integral_Iic_add_Ici_gauss (x : ℝ) :
    (∫ t in Set.Iic x, gauss t) + (∫ t in Set.Ici x, gauss t) =
      ∫ t, gauss t := by
  have h := integral_add_compl (measurableSet_Iic (a := x)) integrable_gauss
  rw [Set.compl_Iic] at h
  rw [← h, integral_Ici_eq_integral_Ioi]

theorem integral_Iic_gauss_reflect (x : ℝ) :
    (∫ t in Set.Iic (-x), gauss t) = ∫ t in Set.Ici x, gauss t := by
  have h1 : (∫ t in Set.Iic (-x), gauss t) =
      ∫ t in Set.Iic (-x), gauss (-t) := by
    refine setIntegral_congr_fun measurableSet_Iic (fun t _ => ?_)
    rw [gauss_neg_arg]
  rw [h1, integral_comp_neg_Iic, neg_neg, integral_Ici_eq_integral_Ioi]

theorem normCdf_neg (x : ℝ) : normCdf (-x) = 1 - normCdf x := by
  unfold normCdf
  rw [integral_Iic_gauss_reflect]
  have h7 : (∫ t in Set.Ici x, gauss t) =
      Real.sqrt (2 * Real.pi) - ∫ t in Set.Iic x, gauss t := by
    have h := integral_Iic_add_Ici_gauss x
    rw [integral_gauss_total] at h
    linarith
  rw [h7, sub_div, div_self (ne_of_gt sqrt_two_pi_pos)]

/-- Substituting `t = x - s` maps the lower tail onto `[0, ∞)`. -/
theorem integral_Iic_gauss_shift (x : ℝ) :
    (∫ t in Set.Iic x, gauss t) = ∫ s in Set.Ici (0:ℝ), gauss (x - s) := by
  have hme : MeasurableEmbedding (fun s : ℝ => x - s) :=
    (MeasurableEquiv.subLeft x).measurableEmbedding
  have hmap : Measure.map (fun s : ℝ => x - s) volume = volume :=
    (Measure.measurePreserving_sub_left volume x).map_eq
  have h := hme.setIntegral_map (μ := volume) gauss (Set.Iic x)
  rw [hmap] at h
  have hpre : Set.preimage (fun s : ℝ => x - s) (Set.Iic x) = Set.Ici (0:ℝ) := by
    ext s
    simp [Set.mem_preimage, Set.mem_Iic, Set.mem_Ici, sub_le_self_iff]
  rw [h, hpre]

theorem integrableOn_tailTilt (u : ℝ) :
    IntegrableOn (fun s : ℝ => Real.exp (u * s - s ^ 2 / 2)) (Set.Ici 0) := by
  have h1 : Integrable (fun s : ℝ => Real.exp (u ^ 2 / 2) * gauss (s - u)) :=
    (integrable_gauss.comp_sub_right u).const_mul _
  have h2 : (fun s : ℝ => Real.exp (u ^ 2 / 2) * gauss (s - u)) =
      fun s : ℝ => Real.exp (u * s - s ^ 2 / 2) := by
    funext s; unfold gauss; rw [← Real.exp_add]; congr 1; ring
  rw [h2] at h1
  exact h1.integrableOn

theorem tailTilt_mono (a b : ℝ) (hab : a ≤ b) : tailTilt a ≤ tailTilt b := by
  refine setIntegral_mono_on (integrableOn_tailTilt a) (integrableOn_tailTilt b)
    measurableSet_Ici (fun s hs => ?_)
  have hs0 : 0 ≤ s := Set.mem_Ici.mp hs
  exact Real.exp_le_exp.mpr (by nlinarith)

theorem Iic_gauss_eq_mul_tailTilt (u : ℝ) :
    (∫ t in Set.Iic u, gauss t) = gauss u * tailTilt u := by
  rw [integral_Iic_gauss_shift]
  unfold tailTilt
  rw [← integral_mul_left]
  refine setIntegral_congr_fun measurableSet_Ici (fun s _ => ?_)
  unfold gauss
  rw [← Real.exp_add]
  congr 1
  ring

/-- The monotone-likelihood-ratio inequality for the normal CDF: for
`a ≤ b`, `Φ(a)·φ(b) ≤ Φ(b)·φ(a)` (with the unnormalized density). -/
theorem normCdf_mul_gauss_le (a b : ℝ) (hab : a ≤ b) :
    normCdf a * gauss b ≤ normCdf b * gauss a := by
  unfold normCdf
  rw [div_mul_eq_mul_div, div_mul_eq_mul_div]
  apply div_le_div_of_nonneg_right ?_ (le_of_lt sqrt_two_pi_pos)
  rw [Iic_gauss_eq_mul_tailTilt, Iic_gauss_eq_mul_tailTilt]
  have hmono := tailTilt_mono a b hab
  nlinarith [gauss_pos a, gauss_pos b,
    mul_le_mul_of_nonneg_left hmono
      (le_of_lt (mul_pos (gauss_pos a) (gauss_pos b)))]

theorem not_boundary {T sigma : ℝ} (hT : 0 < T) (hs : 0 < sigma) :
    ¬ (T ≤ 0 ∨ sigma ≤ 0) := by
  rintro (h | h)
  · exact absurd h (not_le.mpr hT)
  · exact absurd h (not_le.mpr hs)

theorem d2_le_d1 (S K T r sigma : ℝ) (hT : 0 < T) (hs : 0 < sigma) :
    d2 S K T r sigma ≤ d1 S K T r sigma := by
  unfold d2
  rw [if_neg (not_boundary hT hs)]
  have : 0 ≤ sigma * Real.sqrt T :=
    le_of_lt (mul_pos hs (Real.sqrt_pos.mpr hT))
  linarith

theorem d_sq_diff (S K T r sigma : ℝ) (hT : 0 < T) (hs : 0 < sigma) :
    (d1 S K T r sigma) ^ 2 - (d2 S K T r sigma) ^ 2 =
      2 * (Real.log (S / K) + r * T) := by
  have hc : (0:ℝ) < sigma * Real.sqrt T := mul_pos hs (Real.sqrt_pos.mpr hT)
  have hd1 : d1 S K T r sigma =
      (Real.log (S / K) + (r + sigma ^ 2 / 2) * T) / (sigma * Real.sqrt T) := by
    unfold d1; rw [if_neg (not_boundary hT hs)]
  have hd2 : d2 S K T r sigma = d1 S K T r sigma - sigma * Real.sqrt T := by
    unfold d2; rw [if_neg (not_boundary hT hs)]
  have hsq : (sigma * Real.sqrt T) ^ 2 = sigma ^ 2 * T := by
    rw [mul_pow, Real.sq_sqrt (le_of_lt hT)]
  have hcancel : d1 S K T r sigma * (sigma * Real.sqrt T) =
      Real.log (S / K) + (r + sigma ^ 2 / 2) * T := by
    rw [hd1, div_mul_cancel₀ _ (ne_of_gt hc)]
  calc (d1 S K T r sigma) ^ 2 - (d2 S K T r sigma) ^ 2
      = 2 * (d1 S K T r sigma * (sigma * Real.sqrt T)) -
          (sigma * Real.sqrt T) ^ 2 := by rw [hd2]; ring
    _ = 2 * (Real.log (S / K) + r * T) := by rw [hcancel, hsq]; ring

/-- The classical identity `K*exp(-r*T)*φ(d2) = S*φ(d1)` behind the
Black-Scholes vega/gamma symmetry. -/
theorem key_identity (S K T r sigma : ℝ) (hS : 0 < S) (hK : 0 < K)
    (hT : 0 < T) (hs : 0 < sigma) :
    K * Real.exp (-r * T) * gauss (d2 S K T r sigma) =
      S * gauss (d1 S K T r sigma) := by
  unfold gauss
  have e1 : K * Real.exp (-r * T) * Real.exp (-(d2 S K T r sigma ^ 2) / 2) =
      Real.exp (Real.log K + -r * T + -(d2 S K T r sigma ^ 2) / 2) := by
    rw [Real.exp_add, Real.exp_add, Real.exp_log hK]
  have e2 : S * Real.exp (-(d1 S K T r sigma ^ 2) / 2) =
      Real.exp (Real.log S + -(d1 S K T r sigma ^ 2) / 2) := by
    rw [Real.exp_add, Real.exp_log hS]
  rw [e1, e2]
  congr 1
  have hd := d_sq_diff S K T r sigma hT hs
  have hlog : Real.log (S / K) = Real.log S - Real.log K :=
    Real.log_div (ne_of_gt hS) (ne_of_gt hK)
  rw [hlog] at hd
  linarith

/-- The unfloored call value is nonnegative on the interior domain. -/
theorem raw_call_nonneg (S K T r sigma : ℝ) (hS : 0 < S) (hK : 0 < K)
    (hT : 0 < T) (hs : 0 < sigma) :
    0 ≤ S * normCdf (d1 S K T r sigma) -
      K * Real.exp (-r * T) * normCdf (d2 S K T r sigma) := by
  have hcross := normCdf_mul_gauss_le (d2 S K T r sigma) (d1 S K T r sigma)
    (d2_le_d1 S K T r sigma hT hs)
  have hkey := key_identity S K T r sigma hS hK hT hs
  have hg2 : 0 < gauss (d2 S K T r sigma) := gauss_pos _
  rw [sub_nonneg, ← mul_le_mul_right hg2]
  calc K * Real.exp (-r * T) * normCdf (d2 S K T r sigma) *
        gauss (d2 S K T r sigma)
      = (K * Real.exp (-r * T) * gauss (d2 S K T r sigma)) *
          normCdf (d2 S K T r sigma) := by ring
    _ = S * (normCdf (d2 S K T r sigma) * gauss (d1 S K T r sigma)) := by
        rw [hkey]; ring
    _ ≤ S * (normCdf (d1 S K T r sigma) * gauss (d2 S K T r sigma)) :=
        mul_le_mul_of_nonneg_left hcross (le_of_lt hS)
    _ = S * normCdf (d1 S K T r sigma) * gauss (d2 S K T r sigma) := by ring

/-- The unfloored put value is nonnegative on the interior domain. -/
theorem raw_put_nonneg (S K T r sigma : ℝ) (hS : 0 < S) (hK : 0 < K)
    (hT : 0 < T) (hs : 0 < sigma) :
    0 ≤ K * Real.exp (-r * T) * normCdf (-(d2 S K T r sigma)) -
      S * normCdf (-(d1 S K T r sigma)) := by
  have hcross := normCdf_mul_gauss_le (-(d1 S K T r sigma)) (-(d2 S K T r sigma))
    (neg_le_neg (d2_le_d1 S K T r sigma hT hs))
  rw [gauss_neg_arg, gauss_neg_arg] at hcross
  have hkey := key_identity S K T r sigma hS hK hT hs
  have hg2 : 0 < gauss (d2 S K T r sigma) := gauss_pos _
  rw [sub_nonneg, ← mul_le_mul_right hg2]
  calc S * normCdf (-(d1 S K T r sigma)) * gauss (d2 S K T r sigma)
      = S * (normCdf (-(d1 S K T r sigma)) * gauss (d2 S K T r sigma)) := by
        ring
    _ ≤ S * (normCdf (-(d2 S K T r sigma)) * gauss (d1 S K T r sigma)) :=
        mul_le_mul_of_nonneg_left hcross (le_of_lt hS)
    _ = (S * gauss (d1 S K T r sigma)) * normCdf (-(d2 S K T r sigma)) := by
        ring
    _ = K * Real.exp (-r * T) * normCdf (-(d2 S K T r sigma)) *
          gauss (d2 S K T r sigma) := by rw [← hkey]; ring

end BS

/-- C4: put-call parity.  For `S, K, T, sigma > 0` the floors in
`call_price`/`put_price` never bind (both unfloored values are nonnegative),
and `call - put = S - K*exp(-r*T)` holds exactly, hence within the 1e-6
tolerance. -/
theorem C4_put_call_parity (S K T r sigma : ℝ) (hS : 0 < S) (hK : 0 < K)
    (hT : 0 < T) (hs : 0 < sigma) :
    |BS.call_price S K T r sigma - BS.put_price S K T r sigma -
      (S - K * Real.exp (-r * T))| ≤ 1 / 1000000 := by
  have hcall : BS.call_price S K T r sigma =
      S * BS.normCdf (BS.d1 S K T r sigma) -
        K * Real.exp (-r * T) * BS.normCdf (BS.d2 S K T r sigma) := by
    unfold BS.call_price
    rw [if_neg (not_le.mpr hT), if_neg (not_le.mpr hs)]
    exact max_eq_left (BS.raw_call_nonneg S K T r sigma hS hK hT hs)
  have hput : BS.put_price S K T r sigma =
      K * Real.exp (-r * T) * BS.normCdf (-(BS.d2 S K T r sigma)) -
        S * BS.normCdf (-(BS.d1 S K T r sigma)) := by
    unfold BS.put_price
    rw [if_neg (not_le.mpr hT), if_neg (not_le.mpr hs)]
    exact max_eq_left (BS.raw_put_nonneg S K T r sigma hS hK hT hs)
  have hzero : BS.call_price S K T r sigma - BS.put_price S K T r sigma -
      (S - K * Real.exp (-r * T)) = 0 := by
    rw [hcall, hput, BS.normCdf_neg, BS.normCdf_neg]
    ring
  rw [hzero, abs_zero]
  norm_num

/-- Witness for C4 at S = K = 1, T = 1, r = 0, sigma = 1. -/
theorem C4_put_call_parity_witness :
    |BS.call_price 1 1 1 0 1 - BS.put_price 1 1 1 0 1 -
      (1 - 1 * Real.exp (-0 * 1))| ≤ 1 / 1000000 :=
  C4_put_call_parity 1 1 1 0 1 (by norm_num) (by norm_num) (by norm_num)
    (by norm_num)

/-- C5: for `S, K > 0`, any `r`, and `T, sigma > 0`, the call delta lies in
[0, 1], the put delta lies in [-1, 0], and gamma is nonnegative. -/
theorem C5_delta_gamma_bounds (S K T r sigma : ℝ) (hS : 0 < S) (hK : 0 < K)
    (hT : 0 < T) (hs : 0 < sigma) :
    (0 ≤ BS.call_delta S K T r sigma ∧ BS.call_delta S K T r sigma ≤ 1) ∧
      (-1 ≤ BS.put_delta S K T r sigma ∧ BS.put_delta S K T r sigma ≤ 0) ∧
      0 ≤ BS.gamma S K T r sigma := by
  have hnb := BS.not_boundary hT hs
  refine ⟨⟨?_, ?_⟩, ⟨?_, ?_⟩, ?_⟩
  · unfold BS.call_delta
    rw [if_neg hnb]
    exact BS.normCdf_nonneg _
  · unfold BS.call_delta
    rw [if_neg hnb]
    exact BS.normCdf_le_one _
  · unfold BS.put_delta
    rw [if_neg hnb]
    have := BS.normCdf_nonneg (BS.d1 S K T r sigma)
    linarith
  · unfold BS.put_delta
    rw [if_neg hnb]
    have := BS.normCdf_le_one (BS.d1 S K T r sigma)
    linarith
  · unfold BS.gamma
    rw [if_neg hnb]
    apply div_nonneg
    · unfold BS.normPdf
      exact div_nonneg (le_of_lt (BS.gauss_pos _)) (Real.sqrt_nonneg _)
    · positivity

/-- Witness for C5 at S = K = 1, T = 1, r = 0, sigma = 1. -/
theorem C5_delta_gamma_bounds_witness :
    (0 ≤ BS.call_delta 1 1 1 0 1 ∧ BS.call_delta 1 1 1 0 1 ≤ 1) ∧
      (-1 ≤ BS.put_delta 1 1 1 0 1 ∧ BS.put_delta 1 1 1 0 1 ≤ 0) ∧
      0 ≤ BS.gamma 1 1 1 0 1 :=
  C5_delta_gamma_bounds 1 1 1 0 1 (by norm_num) (by norm_num) (by norm_num)
    (by norm_num)

namespace OptionChain

theorem call_price_nonneg (S K T r sigma : ℝ) :
    0 ≤ BS.call_price S K T r sigma := by
  unfold BS.call_price
  split_ifs <;> exact le_max_right _ _

end OptionChain

/-- C9: the implied-volatility solver returns the NaN sentinel whenever the
pricing objective has no sign change over the bracket `[0.001, 5.0]`, and it
never lets a root-finder exception escape: every `brentq` error is converted
to the sentinel (it is a total function into `Option`). -/
theorem C9_implied_vol_nan_never_raises
    (findRoot : (ℝ → ℝ) → ℝ → ℝ → ℝ)
    (option_price S K T r : ℝ) (isCall : Bool) :
    (0 < OptionChain.ivObjective option_price S K T r isCall (1/1000) *
        OptionChain.ivObjective option_price S K T r isCall 5 →
      OptionChain.calculate_implied_volatility findRoot option_price S K T r
        isCall = none) ∧
    (∀ e, OptionChain.brentq findRoot
        (OptionChain.ivObjective option_price S K T r isCall) (1/1000) 5 =
          Except.error e →
      OptionChain.calculate_implied_volatility findRoot option_price S K T r
        isCall = none) := by
  constructor
  · intro h
    unfold OptionChain.calculate_implied_volatility OptionChain.brentq
    rw [if_pos h]
  · intro e he
    unfold OptionChain.calculate_implied_volatility
    rw [he]

/-- Witness for C9: a negative market price makes the objective strictly
positive at both bracket ends (call prices are nonnegative), so the solver
returns the sentinel. -/
theorem C9_implied_vol_nan_never_raises_witness :
    OptionChain.calculate_implied_volatility (fun _ _ _ => 0) (-1) 1 1 1 0
      true = none := by
  apply (C9_implied_vol_nan_never_raises (fun _ _ _ => 0) (-1) 1 1 1 0 true).1
  have h1 := OptionChain.call_price_nonneg 1 1 1 0 (1/1000)
  have h2 := OptionChain.call_price_nonneg 1 1 1 0 5
  unfold OptionChain.ivObjective
  simp only [if_true]
  nlinarith
